import Mathlib

/-
  Verification of the crypto-token tokenization engine (package tkengine).

  Go strings are modelled as `List Char`, each `Char` standing for one byte
  (all inputs of interest are ASCII).  Fallible Go functions returning
  `(T, error)` are modelled as `Except String T`.  The external collaborators
  (HMAC-SHA256 and the ff1 format-preserving cipher) are modelled as opaque
  function parameters, following the contract in the design document.
-/

namespace TkEngine

/-- Go string, one `Char` per byte. -/
abbrev GoStr := List Char

/-- ASCII digit test: the regexp character class 0-9, and `unicode.IsDigit`
restricted to single-byte characters. -/
def goIsDigit (c : Char) : Bool := 48 ≤ c.toNat && c.toNat ≤ 57

/-- Numeric value of an ASCII digit character. -/
def digitToNat (c : Char) : Nat := c.toNat - 48

/-- Value of a decimal digit string, most-significant digit first
(the numeric semantics of `strconv.ParseUint(s, 10, _)`). -/
def strVal (s : GoStr) : Nat := s.foldl (fun a c => a * 10 + digitToNat c) 0

/-- strconv.ParseUint(s, 10, 32): rejects empty input, non-digit characters
and values that do not fit in 32 bits. -/
def parseUint32 (s : GoStr) : Except String Nat :=
  if s.isEmpty then .error "invalid syntax"
  else if !s.all goIsDigit then .error "invalid syntax"
  else if strVal s ≥ 2 ^ 32 then .error "value out of range"
  else .ok (strVal s)

/-- Helper for `strconv.Itoa`: digits of `n`, most significant first, empty
for `n = 0`.  The first argument is recursion fuel; `n` itself is enough. -/
def itoaAux : Nat → Nat → GoStr
  | 0, _ => []
  | fuel + 1, n => if n = 0 then [] else itoaAux fuel (n / 10) ++ [Char.ofNat (48 + n % 10)]

/-- strconv.Itoa for natural numbers (the values fed to it in the source are
nonnegative int values below 2^31). -/
def itoa (n : Nat) : GoStr := if n = 0 then ['0'] else itoaAux n n

/-- Rendering of a natural number used in error messages. -/
def natToString (n : Nat) : String := String.mk (itoa n)

/-- AlphabetProvider.GetAlphabetForBase, as a plain function. -/
abbrev AlphabetProvider := Nat → Except String GoStr

/-- KeyRepo.GetKey, as a plain function from version byte to key bytes. -/
abbrev KeyRepo := Char → Except String GoStr

/-- The external keyed-hash collaborator: hmac.New(sha256.New, key) applied
to a message.  Opaque: only used as a deterministic function. -/
abbrev HmacFn := GoStr → GoStr → GoStr

/-- One cipher handle produced by ff1.NewCipher: Encrypt and Decrypt over
digit strings. -/
structure FPECipher where
  Encrypt : GoStr → Except String GoStr
  Decrypt : GoStr → Except String GoStr

/-- ff1.NewCipher(radix, maxTweakLength, key, tweak), opaque collaborator. -/
abbrev FPENewCipher := Nat → Nat → GoStr → GoStr → Except String FPECipher

/-- KeyVersioner: the outcome of its two methods during one call.  The Go
interface may be randomized across calls; a single engine operation observes
one fixed outcome of each method, which is what is modelled. -/
structure KeyVersioner where
  GetTokenizationVersion : Except String Char
  GetDetokenizationVersions : Except String GoStr

/-- The engine struct. -/
structure Engine where
  versioner : KeyVersioner
  encryptionKeys : KeyRepo
  hmacKeys : KeyRepo
  alphaProvider : AlphabetProvider

/-- Default alphabet for base 14: letters a..n. -/
def alphabet14 : GoStr := ['a','b','c','d','e','f','g','h','i','j','k','l','m','n']

/-- Default alphabet for base 15: letters a..o. -/
def alphabet15 : GoStr := ['a','b','c','d','e','f','g','h','i','j','k','l','m','n','o']

/-- Default alphabet for base 16: letters a..p. -/
def alphabet16 : GoStr := ['a','b','c','d','e','f','g','h','i','j','k','l','m','n','o','p']

/-- Default alphabet for base 18: letters a..r. -/
def alphabet18 : GoStr := ['a','b','c','d','e','f','g','h','i','j','k','l','m','n','o','p','q','r']

/-- Default alphabet for base 22: letters a..v. -/
def alphabet22 : GoStr := ['a','b','c','d','e','f','g','h','i','j','k','l','m','n','o','p','q','r','s','t','u','v']

/-- Default alphabet for base 32: letters a..z then digits 0..5. -/
def alphabet32 : GoStr :=
  ['a','b','c','d','e','f','g','h','i','j','k','l','m','n','o','p','q','r','s','t','u','v','w','x','y','z','0','1','2','3','4','5']

/-- DefaultAlphabetProvider.GetAlphabetForBase: alphabets for bases
14, 15, 16, 18, 22, 32; any other base is an error. -/
def DefaultAlphabetProvider : AlphabetProvider := fun base =>
  if base = 14 then .ok alphabet14
  else if base = 15 then .ok alphabet15
  else if base = 16 then .ok alphabet16
  else if base = 18 then .ok alphabet18
  else if base = 22 then .ok alphabet22
  else if base = 32 then .ok alphabet32
  else .error ("No availlable alphabet for base " ++ natToString base)

/-- encodingBaseToSaveOneChar: the base-selection table for the size `s` of
the decimal segment; errors outside the range 3..9.  (The Go source reads the
base out of a literal map after the range check, so every in-range `s` hits a
key of the map.) -/
def encodingBaseToSaveOneChar (s : Nat) : Except String Nat :=
  if s < 3 || s > 9 then .error ("Invalid CC or TK size: " ++ natToString s)
  else if s = 3 then .ok 32
  else if s = 4 then .ok 22
  else if s = 5 then .ok 18
  else if s = 6 then .ok 16
  else if s = 7 then .ok 15
  else if s = 8 then .ok 14
  else .ok 14

/-- The loop building `alphaMap` in the Go source: iterate over the alphabet
with ascending index, a later occurrence of a symbol overwriting an earlier
one, then look the symbol up. -/
def alphaMapGo (c : Char) : GoStr → Nat → Option Nat → Option Nat
  | [], _, acc => acc
  | a :: rest, i, acc => alphaMapGo c rest (i + 1) (if a = c then some i else acc)

/-- Lookup of a symbol in the alphabet map built by the Go loops. -/
def alphaMapLookup (alpha : GoStr) (c : Char) : Option Nat :=
  alphaMapGo c alpha 0 none

/-- The `contains` helper of the Go source. -/
def contains (s : GoStr) (v : Char) : Bool := s.any (fun el => v = el)

/-- The encoding loop of encodeTkMD: with `k` iterations left it divides by
base^(k-1), maps the quotient through the alphabet and keeps the remainder.
An out-of-range alphabet index (a Go panic) is modelled as an error; the
signed 32-bit arithmetic of the source is exact on this domain (n < 10^9
< 2^31 and every power fits in int32), so plain Nat arithmetic coincides. -/
def encodeLoop (alpha : GoStr) (base : Nat) : Nat → Nat → Except String GoStr
  | _, 0 => .ok []
  | n, k + 1 =>
    match alpha.get? (n / base ^ k) with
    | none => .error "index out of range"
    | some c =>
      match encodeLoop alpha base (n % base ^ k) k with
      | .error e => .error e
      | .ok rest => .ok (c :: rest)

/-- The decoding loop of decodeTkMD: n += alphaMap[c] * base^(len-1-i); the
exponent at each position equals the length of the remaining suffix.  The
uint32 arithmetic of the source is exact on this domain (result < 14^8 <
2^31). -/
def decodeLoop (idx : Char → Option Nat) (base : Nat) : GoStr → Nat → Except String Nat
  | [], n => .ok n
  | c :: rest, n =>
    match idx c with
    | none => .error ("Found char in token that does not belong to the alphabet: char " ++ String.mk [c])
    | some m => decodeLoop idx base rest (n + m * base ^ rest.length)

/-- encodeTkMD: digits-to-symbols codec, one output symbol less than the
input length. -/
def encodeTkMD (ciphertext : GoStr) (alphaProvider : AlphabetProvider) : Except String GoStr :=
  if ciphertext.length < 3 || ciphertext.length > 9 then
    .error ("ciphertext len is not in interval. Instead it is " ++ natToString ciphertext.length)
  else
    match parseUint32 ciphertext with
    | .error e => .error e
    | .ok n =>
      match encodingBaseToSaveOneChar ciphertext.length with
      | .error e => .error e
      | .ok base =>
        match alphaProvider base with
        | .error e => .error e
        | .ok alpha => encodeLoop alpha base n (ciphertext.length - 1)

/-- decodeTkMD: symbols-to-digits codec; renders the recomputed value with
strconv.Itoa and left-pads with '0' up to `len(tkMD)+1` characters (the
padding loop body never runs when the rendering is already longer). -/
def decodeTkMD (tkMD : GoStr) (alphaProvider : AlphabetProvider) : Except String GoStr :=
  if tkMD.length < 2 || tkMD.length > 8 then
    .error ("tk middle digits len is not in interval. Instead it is " ++ natToString tkMD.length)
  else
    match encodingBaseToSaveOneChar (tkMD.length + 1) with
    | .error e => .error e
    | .ok base =>
      match alphaProvider base with
      | .error e => .error e
      | .ok alpha =>
        match decodeLoop (alphaMapLookup alpha) base tkMD 0 with
        | .error e => .error e
        | .ok n => .ok (List.replicate ((tkMD.length + 1) - (itoa n).length) '0' ++ itoa n)

/-- Go's builtin copy(dst, src): overwrites the first min(len dst, len src)
entries of dst with those of src. -/
def goCopy (dst src : GoStr) : GoStr :=
  src.take dst.length ++ dst.drop (min dst.length src.length)

/-- The sixByFour buffer built in EncryptCC:
sixByFour := make drawn as 10 zero bytes; copy(sixByFour, cc[:6]);
sixByFour = append(sixByFour, cc[len(cc)-4:]...). -/
def sixByFourCC (cc : GoStr) : GoStr :=
  goCopy (List.replicate 10 (Char.ofNat 0)) (cc.take 6) ++ cc.drop (cc.length - 4)

/-- The sixByFour buffer built in DecryptTK, identical construction. -/
def sixByFourTK (tk : GoStr) : GoStr :=
  goCopy (List.replicate 10 (Char.ofNat 0)) (tk.take 6) ++ tk.drop (tk.length - 4)

/-- Modelled from the spec: the 6x4 fingerprint as the spec words it, namely
the 10-character concatenation of the first 6 and last 4 characters.  Kept
separate from the source-derived sixByFour buffers for comparison. -/
def specFingerprint (s : GoStr) : GoStr := s.take 6 ++ s.drop (s.length - 4)

/-- isValidCC: the regexp match for `[0-9]` repeated 13 to 19 times, anchored
on both sides. -/
def isValidCC (cc : GoStr) : Bool :=
  13 ≤ cc.length && cc.length ≤ 19 && cc.all goIsDigit

/-- isValidTK: structural validation of a token. -/
def isValidTK (tk : GoStr) (alphaProvider : AlphabetProvider) (vers : GoStr) : Bool :=
  if tk.length < 13 || tk.length > 19 then false
  else if !(tk.take 6).all goIsDigit then false
  else if !(tk.drop (tk.length - 4)).all goIsDigit then false
  else
    match encodingBaseToSaveOneChar (tk.length - 10) with
    | .error _ => false
    | .ok base =>
      match alphaProvider base with
      | .error _ => false
      | .ok alpha =>
        if !((tk.drop 7).take (tk.length - 4 - 7)).all (fun c => (alphaMapLookup alpha c).isSome) then false
        else contains vers (tk.getD 6 (Char.ofNat 0))

/-- validateAlphabetProvider's loop over the required bases: the alphabet
must exist, have size equal to the base and contain no duplicated symbol
(the Go set of symbols, compared by size, is modelled by `List.dedup`). -/
def validateAlphabetProviderLoop (alphaProvider : AlphabetProvider) : List Nat → Except String Unit
  | [] => .ok ()
  | i :: rest =>
    match alphaProvider i with
    | .error _ => .error "Error while retriving alphabet"
    | .ok alpha =>
      if alpha.length ≠ i then .error "Size should match base"
      else if alpha.dedup.length ≠ alpha.length then .error "alphabet contains duplicated elements"
      else validateAlphabetProviderLoop alphaProvider rest

/-- validateAlphabetProvider over the bases 14, 15, 16, 18, 22, 32. -/
def validateAlphabetProvider (alphaProvider : AlphabetProvider) : Except String Unit :=
  validateAlphabetProviderLoop alphaProvider [14, 15, 16, 18, 22, 32]

/-- EncryptCC.  The two external collaborators (keyed hash, ff1 cipher
constructor) are passed as function parameters. -/
def EncryptCC (hmacSha256 : HmacFn) (ff1NewCipher : FPENewCipher) (e : Engine) (cc : GoStr) :
    Except String GoStr :=
  if !isValidCC cc then .error "Invalid CC format"
  else
    match e.versioner.GetTokenizationVersion with
    | .error s => .error s
    | .ok v =>
      match e.encryptionKeys v with
      | .error s => .error s
      | .ok ekey =>
        match e.hmacKeys v with
        | .error s => .error s
        | .ok hkey =>
          let tweak := hmacSha256 hkey (sixByFourCC cc)
          match ff1NewCipher 10 tweak.length ekey tweak with
          | .error s => .error s
          | .ok cipher =>
            match cipher.Encrypt ((cc.drop 6).take (cc.length - 4 - 6)) with
            | .error s => .error s
            | .ok ciphertext =>
              if ((cc.drop 6).take (cc.length - 4 - 6)).length ≠ ciphertext.length then
                .error "middle digits and ciphertext length differs"
              else
                match encodeTkMD ciphertext e.alphaProvider with
                | .error s => .error s
                | .ok tkmd => .ok (cc.take 6 ++ [v] ++ tkmd ++ cc.drop (cc.length - 4))

/-- DecryptTK. -/
def DecryptTK (hmacSha256 : HmacFn) (ff1NewCipher : FPENewCipher) (e : Engine) (tk : GoStr) :
    Except String GoStr :=
  match e.versioner.GetDetokenizationVersions with
  | .error s => .error s
  | .ok detokVers =>
    if !isValidTK tk e.alphaProvider detokVers then .error "Invalid TK format"
    else
      let v := tk.getD 6 (Char.ofNat 0)
      match e.encryptionKeys v with
      | .error s => .error s
      | .ok ekey =>
        match e.hmacKeys v with
        | .error s => .error s
        | .ok hkey =>
          let md := (tk.drop 6).take (tk.length - 4 - 6)
          let tweak := hmacSha256 hkey (sixByFourTK tk)
          match decodeTkMD (md.drop 1) e.alphaProvider with
          | .error s => .error s
          | .ok decmd =>
            match ff1NewCipher 10 tweak.length ekey tweak with
            | .error s => .error s
            | .ok cipher =>
              match cipher.Decrypt decmd with
              | .error s => .error s
              | .ok plaintext =>
                if md.length ≠ plaintext.length then
                  .error "middle digits and plaintext length differs"
                else .ok (tk.take 6 ++ plaintext ++ tk.drop (tk.length - 4))

/-- Identity format-preserving cipher handle, used to instantiate the opaque
ff1 collaborator in witnesses. -/
def idCipher : FPECipher := ⟨fun p => .ok p, fun c => .ok c⟩

/-- Identity ff1 constructor: always succeeds with the identity cipher. -/
def idFF1 : FPENewCipher := fun _ _ _ _ => .ok idCipher

/-- Degenerate keyed hash used in witnesses. -/
def zeroHmac : HmacFn := fun _ _ => []

/-- Deterministic versioner used in witnesses: tokenization version 'a',
detokenization versions a, b, c, d (as in the repository's tests). -/
def wVersioner : KeyVersioner := ⟨.ok 'a', .ok ['a', 'b', 'c', 'd']⟩

/-- Concrete engine used in witnesses: fixed versioner, empty keys, default
alphabets. -/
def wEngine : Engine := ⟨wVersioner, fun _ => .ok [], fun _ => .ok [], DefaultAlphabetProvider⟩

/-- Decidable equality for Except values, to evaluate concrete runs. -/
instance exceptDecEq {ε α : Type} [DecidableEq ε] [DecidableEq α] : DecidableEq (Except ε α) :=
  fun a b =>
  match a, b with
  | .error x, .error y =>
    if h : x = y then .isTrue (by rw [h]) else .isFalse (fun hc => h (by cases hc; rfl))
  | .ok x, .ok y =>
    if h : x = y then .isTrue (by rw [h]) else .isFalse (fun hc => h (by cases hc; rfl))
  | .error _, .ok _ => .isFalse (fun hc => by cases hc)
  | .ok _, .error _ => .isFalse (fun hc => by cases hc)

lemma goIsDigit_iff (c : Char) : goIsDigit c = true ↔ 48 ≤ c.toNat ∧ c.toNat ≤ 57 := by
  simp [goIsDigit, Bool.and_eq_true, decide_eq_true_eq]

lemma digitToNat_lt (c : Char) (h : goIsDigit c = true) : digitToNat c < 10 := by
  rcases (goIsDigit_iff c).1 h with ⟨h1, h2⟩
  unfold digitToNat
  omega

lemma toNat_ofNat_digit (d : Nat) (hd : d < 10) : (Char.ofNat (48 + d)).toNat = 48 + d := by
  interval_cases d <;> decide

lemma goIsDigit_ofNat_digit (d : Nat) (hd : d < 10) : goIsDigit (Char.ofNat (48 + d)) = true := by
  interval_cases d <;> decide

lemma digitToNat_ofNat_digit (d : Nat) (hd : d < 10) : digitToNat (Char.ofNat (48 + d)) = d := by
  interval_cases d <;> decide

lemma ofNat_digitToNat (c : Char) (h : goIsDigit c = true) : Char.ofNat (48 + digitToNat c) = c := by
  rcases (goIsDigit_iff c).1 h with ⟨h1, h2⟩
  have he : 48 + digitToNat c = c.toNat := by unfold digitToNat; omega
  rw [he, Char.ofNat_toNat]

lemma strVal_go (s : GoStr) : ∀ a : Nat,
    s.foldl (fun a c => a * 10 + digitToNat c) a = a * 10 ^ s.length + strVal s := by
  induction s with
  | nil => intro a; simp [strVal]
  | cons c t ih =>
    intro a
    have hs : strVal (c :: t) = t.foldl (fun a c => a * 10 + digitToNat c) (digitToNat c) := by
      simp [strVal]
    simp only [List.foldl_cons, List.length_cons]
    rw [ih (a * 10 + digitToNat c), hs, ih (digitToNat c)]
    ring

lemma strVal_cons (c : Char) (t : GoStr) :
    strVal (c :: t) = digitToNat c * 10 ^ t.length + strVal t := by
  have hs : strVal (c :: t) = t.foldl (fun a c => a * 10 + digitToNat c) (digitToNat c) := by
    simp [strVal]
  rw [hs, strVal_go]

lemma strVal_append_singleton (s : GoStr) (c : Char) :
    strVal (s ++ [c]) = strVal s * 10 + digitToNat c := by
  simp [strVal, List.foldl_append]

lemma strVal_zeros_prefix (k : Nat) (s : GoStr) :
    strVal (List.replicate k '0' ++ s) = strVal s := by
  induction k with
  | zero => simp
  | succ k ih =>
    rw [List.replicate_succ, List.cons_append, strVal_cons]
    have h0 : digitToNat '0' = 0 := by decide
    rw [h0, ih]
    ring

lemma strVal_lt (s : GoStr) (h : s.all goIsDigit = true) : strVal s < 10 ^ s.length := by
  induction s with
  | nil => simp [strVal]
  | cons c t ih =>
    simp only [List.all_cons, Bool.and_eq_true] at h
    rw [strVal_cons]
    have hd := digitToNat_lt c h.1
    have ht := ih h.2
    calc digitToNat c * 10 ^ t.length + strVal t
        < digitToNat c * 10 ^ t.length + 10 ^ t.length := by omega
      _ = (digitToNat c + 1) * 10 ^ t.length := by ring
      _ ≤ 10 * 10 ^ t.length := Nat.mul_le_mul_right _ (by omega)
      _ = 10 ^ (c :: t).length := by rw [List.length_cons]; ring

lemma itoaAux_zero (fuel : Nat) : itoaAux fuel 0 = [] := by
  cases fuel <;> simp [itoaAux]

lemma itoaAux_congr (n : Nat) : ∀ fuel fuel' : Nat, n ≤ fuel → n ≤ fuel' →
    itoaAux fuel n = itoaAux fuel' n := by
  induction n using Nat.strong_induction_on with
  | _ n ih =>
    intro fuel fuel' h h'
    rcases Nat.eq_zero_or_pos n with hn | hn
    · subst hn; rw [itoaAux_zero, itoaAux_zero]
    · obtain ⟨f, rfl⟩ : ∃ f, fuel = f + 1 := ⟨fuel - 1, by omega⟩
      obtain ⟨f', rfl⟩ : ∃ g, fuel' = g + 1 := ⟨fuel' - 1, by omega⟩
      simp only [itoaAux, if_neg (Nat.pos_iff_ne_zero.mp hn)]
      have hdiv : n / 10 < n := Nat.div_lt_self hn (by norm_num)
      rw [ih (n / 10) hdiv f f' (by omega) (by omega)]

lemma itoaAux_self_unfold (n : Nat) (hn : 0 < n) :
    itoaAux n n = itoaAux (n / 10) (n / 10) ++ [Char.ofNat (48 + n % 10)] := by
  obtain ⟨m, rfl⟩ : ∃ m, n = m + 1 := ⟨n - 1, by omega⟩
  have hdiv : (m + 1) / 10 < m + 1 := Nat.div_lt_self hn (by norm_num)
  conv_lhs => rw [itoaAux]
  rw [if_neg (by omega : ¬ (m + 1 = 0))]
  rw [itoaAux_congr ((m + 1) / 10) m ((m + 1) / 10) (by omega) le_rfl]

lemma itoaAux_self_eq_itoa (n : Nat) (hn : 0 < n) : itoaAux n n = itoa n := by
  simp [itoa, Nat.pos_iff_ne_zero.mp hn]

lemma strVal_itoaAux_self (n : Nat) : strVal (itoaAux n n) = n := by
  induction n using Nat.strong_induction_on with
  | _ n ih =>
    rcases Nat.eq_zero_or_pos n with hn | hn
    · subst hn; rw [itoaAux_zero]; rfl
    · rw [itoaAux_self_unfold n hn, strVal_append_singleton,
        ih (n / 10) (Nat.div_lt_self hn (by norm_num)),
        digitToNat_ofNat_digit _ (Nat.mod_lt _ (by norm_num))]
      omega

lemma strVal_itoa (n : Nat) : strVal (itoa n) = n := by
  rcases Nat.eq_zero_or_pos n with hn | hn
  · subst hn; rfl
  · rw [← itoaAux_self_eq_itoa n hn, strVal_itoaAux_self]

lemma itoaAux_self_all_digits (n : Nat) : (itoaAux n n).all goIsDigit = true := by
  induction n using Nat.strong_induction_on with
  | _ n ih =>
    rcases Nat.eq_zero_or_pos n with hn | hn
    · subst hn; rw [itoaAux_zero]; rfl
    · rw [itoaAux_self_unfold n hn]
      rw [List.all_append, Bool.and_eq_true]
      exact ⟨ih (n / 10) (Nat.div_lt_self hn (by norm_num)), by
        simp [goIsDigit_ofNat_digit _ (Nat.mod_lt n (by norm_num))]⟩

lemma itoa_all_digits (n : Nat) : (itoa n).all goIsDigit = true := by
  rcases Nat.eq_zero_or_pos n with hn | hn
  · subst hn; rfl
  · rw [← itoaAux_self_eq_itoa n hn]; exact itoaAux_self_all_digits n

lemma itoaAux_self_length_le (k : Nat) : ∀ n, n < 10 ^ k → (itoaAux n n).length ≤ k := by
  induction k with
  | zero =>
    intro n h
    have : n = 0 := by simpa using Nat.lt_one_iff.mp h
    subst this; rw [itoaAux_zero]; rfl
  | succ k ih =>
    intro n h
    rcases Nat.eq_zero_or_pos n with hn | hn
    · subst hn; rw [itoaAux_zero]; simp
    · rw [itoaAux_self_unfold n hn, List.length_append]
      have hdiv : n / 10 < 10 ^ k := by
        rw [Nat.div_lt_iff_lt_mul (by norm_num : 0 < 10)]
        calc n < 10 ^ (k + 1) := h
          _ = 10 ^ k * 10 := by ring
      have := ih (n / 10) hdiv
      simpa using by omega

lemma itoaAux_self_length_ge (k : Nat) : ∀ n, 10 ^ k ≤ n → k + 1 ≤ (itoaAux n n).length := by
  induction k with
  | zero =>
    intro n h
    have hn : 0 < n := by simpa using h
    rw [itoaAux_self_unfold n hn, List.length_append]
    simp
  | succ k ih =>
    intro n h
    have hn : 0 < n := lt_of_lt_of_le (Nat.pos_pow_of_pos _ (by norm_num)) h
    rw [itoaAux_self_unfold n hn, List.length_append]
    have hdiv : 10 ^ k ≤ n / 10 := by
      rw [Nat.le_div_iff_mul_le (by norm_num : 0 < 10)]
      calc 10 ^ k * 10 = 10 ^ (k + 1) := by ring
        _ ≤ n := h
    have := ih (n / 10) hdiv
    simp only [List.length_singleton]
    omega

lemma itoa_length_le (n k : Nat) (hk : 1 ≤ k) (h : n < 10 ^ k) : (itoa n).length ≤ k := by
  rcases Nat.eq_zero_or_pos n with hn | hn
  · subst hn; simpa [itoa] using hk
  · rw [← itoaAux_self_eq_itoa n hn]; exact itoaAux_self_length_le k n h

lemma lt_of_itoa_length_le (n k : Nat) (h : (itoa n).length ≤ k) : n < 10 ^ k := by
  by_contra hc
  push_neg at hc
  have hn : 0 < n := lt_of_lt_of_le (Nat.pos_pow_of_pos _ (by norm_num)) hc
  have := itoaAux_self_length_ge k n hc
  rw [itoaAux_self_eq_itoa n hn] at this
  omega

lemma replicate_zeros_of_strVal_zero (t : GoStr) (htne : t ≠ [])
    (ihres : List.replicate (t.length - (itoa (strVal t)).length) '0' ++ itoa (strVal t) = t)
    (hv0 : strVal t = 0) : t = List.replicate t.length '0' := by
  have hlen1 : 1 ≤ t.length := List.length_pos.mpr htne
  have h1 : itoa (strVal t) = ['0'] := by rw [hv0]; rfl
  rw [h1] at ihres
  conv_lhs => rw [← ihres]
  rw [← List.replicate_succ']
  congr 1
  simp only [List.length_singleton]
  omega

lemma pad_itoa (s : GoStr) : s.all goIsDigit = true → s ≠ [] →
    List.replicate (s.length - (itoa (strVal s)).length) '0' ++ itoa (strVal s) = s := by
  induction s using List.reverseRecOn with
  | nil => intro _ h; exact absurd rfl h
  | append_singleton t c ih =>
    intro hall _
    rw [List.all_append, Bool.and_eq_true] at hall
    rcases hall with ⟨ht, hc⟩
    have hcd : goIsDigit c = true := by simpa using hc
    have hd : digitToNat c < 10 := digitToNat_lt c hcd
    have hv : strVal (t ++ [c]) = strVal t * 10 + digitToNat c := strVal_append_singleton t c
    rcases eq_or_ne t [] with hnil | htne
    · subst hnil
      simp only [List.nil_append] at hv ⊢
      have hval : strVal [c] = digitToNat c := by
        rw [show ([c] : GoStr) = [] ++ [c] from rfl, strVal_append_singleton]
        simp [strVal]
      rcases Nat.eq_zero_or_pos (digitToNat c) with h0 | hpos
      · have hc0 : c = '0' := by
          have hoc := ofNat_digitToNat c hcd
          rw [h0] at hoc
          simpa using hoc.symm
        subst hc0
        rw [hval, h0]
        rfl
      · rw [hval]
        have hsing : itoa (digitToNat c) = [Char.ofNat (48 + digitToNat c)] := by
          rw [← itoaAux_self_eq_itoa _ hpos, itoaAux_self_unfold _ hpos,
            Nat.div_eq_of_lt hd, Nat.mod_eq_of_lt hd, itoaAux_zero]
          rfl
        rw [hsing, ofNat_digitToNat c hcd]
        rfl
    · have iht := ih ht htne
      have hlen1 : 1 ≤ t.length := List.length_pos.mpr htne
      rcases Nat.eq_zero_or_pos (strVal (t ++ [c])) with hz | hp
      · have hv0 : strVal t = 0 ∧ digitToNat c = 0 := by rw [hv] at hz; omega
        have hc0 : c = '0' := by
          have hoc := ofNat_digitToNat c hcd
          rw [hv0.2] at hoc
          simpa using hoc.symm
        have ht0 : t = List.replicate t.length '0' :=
          replicate_zeros_of_strVal_zero t htne iht hv0.1
        subst hc0
        rw [hz, show itoa 0 = ['0'] from rfl]
        simp only [List.length_append, List.length_singleton]
        rw [show t.length + 1 - 1 = t.length from by omega]
        conv_rhs => rw [ht0]
      · have hsplit : itoa (strVal (t ++ [c]))
            = itoaAux (strVal t) (strVal t) ++ [Char.ofNat (48 + digitToNat c)] := by
          rw [← itoaAux_self_eq_itoa _ hp, itoaAux_self_unfold _ hp]
          have h1 : strVal (t ++ [c]) / 10 = strVal t := by rw [hv]; omega
          have h2 : strVal (t ++ [c]) % 10 = digitToNat c := by rw [hv]; omega
          rw [h1, h2]
        rw [hsplit, ofNat_digitToNat c hcd]
        rcases Nat.eq_zero_or_pos (strVal t) with hv0 | hvpos
        · rw [hv0, itoaAux_zero]
          have ht0 : t = List.replicate t.length '0' :=
            replicate_zeros_of_strVal_zero t htne iht hv0
          simp only [List.nil_append, List.length_append, List.length_singleton]
          rw [show t.length + 1 - 1 = t.length from by omega]
          conv_rhs => rw [ht0]
        · rw [itoaAux_self_eq_itoa _ hvpos]
          simp only [List.length_append, List.length_singleton]
          rw [show t.length + 1 - ((itoa (strVal t)).length + 1)
              = t.length - (itoa (strVal t)).length from by omega,
            ← List.append_assoc, iht]

lemma alphaMapGo_not_mem (c : Char) : ∀ (l : GoStr) (i : Nat) (acc : Option Nat),
    c ∉ l → alphaMapGo c l i acc = acc := by
  intro l
  induction l with
  | nil => intro i acc _; rfl
  | cons a rest ih =>
    intro i acc hnm
    rw [List.mem_cons, not_or] at hnm
    have hne : ¬ (a = c) := fun h => hnm.1 h.symm
    simp only [alphaMapGo, if_neg hne]
    exact ih (i + 1) acc hnm.2

lemma alphaMapGo_isSome (c : Char) : ∀ (l : GoStr) (i : Nat) (acc : Option Nat),
    (alphaMapGo c l i acc).isSome = true ↔ c ∈ l ∨ acc.isSome = true := by
  intro l
  induction l with
  | nil => intro i acc; simp [alphaMapGo]
  | cons a rest ih =>
    intro i acc
    by_cases hac : a = c
    · subst hac
      simp only [alphaMapGo, if_pos rfl]
      rw [ih]
      simp
    · have hca : ¬ (c = a) := fun h => hac h.symm
      simp only [alphaMapGo, if_neg hac]
      rw [ih]
      simp [List.mem_cons, hca]

lemma alphaMapLookup_isSome (alpha : GoStr) (c : Char) :
    (alphaMapLookup alpha c).isSome = true ↔ c ∈ alpha := by
  unfold alphaMapLookup
  rw [alphaMapGo_isSome]
  simp

lemma alphaMapGo_some (c : Char) : ∀ (l : GoStr) (i : Nat) (acc : Option Nat) (m : Nat),
    alphaMapGo c l i acc = some m → acc = some m ∨ ∃ j, l.get? j = some c ∧ m = i + j := by
  intro l
  induction l with
  | nil => intro i acc m h; exact Or.inl h
  | cons a rest ih =>
    intro i acc m h
    simp only [alphaMapGo] at h
    rcases ih (i + 1) _ m h with hacc | ⟨j, hj, hm⟩
    · by_cases hac : a = c
      · rw [if_pos hac] at hacc
        injection hacc with him
        subst him
        exact Or.inr ⟨0, by simp [hac], by omega⟩
      · rw [if_neg hac] at hacc
        exact Or.inl hacc
    · exact Or.inr ⟨j + 1, by simpa using hj, by omega⟩

lemma alphaMapLookup_some (alpha : GoStr) (c : Char) (m : Nat)
    (h : alphaMapLookup alpha c = some m) : m < alpha.length ∧ alpha.get? m = some c := by
  rcases alphaMapGo_some c alpha 0 none m h with hacc | ⟨j, hj, hm⟩
  · cases hacc
  · have hlt : j < alpha.length := by
      by_contra hc
      push_neg at hc
      rw [List.get?_eq_none.mpr hc] at hj
      cases hj
    subst hm
    refine ⟨by omega, ?_⟩
    rw [Nat.zero_add]
    exact hj

lemma alphaMapGo_nodup_get (c : Char) : ∀ (l : GoStr) (j i : Nat) (acc : Option Nat),
    l.Nodup → l.get? j = some c → alphaMapGo c l i acc = some (i + j) := by
  intro l
  induction l with
  | nil => intro j i acc _ hj; cases hj
  | cons a rest ih =>
    intro j i acc hnd hj
    rw [List.nodup_cons] at hnd
    cases j with
    | zero =>
      have hac : a = c := by simpa using hj
      subst hac
      have hrw : alphaMapGo a (a :: rest) i acc = alphaMapGo a rest (i + 1) (some i) := by
        simp [alphaMapGo]
      rw [hrw, alphaMapGo_not_mem a rest (i + 1) (some i) hnd.1]
      simp
    | succ j =>
      have hj' : rest.get? j = some c := by simpa using hj
      have := ih j (i + 1) (if a = c then some i else acc) hnd.2 hj'
      rw [alphaMapGo]
      rw [this]
      congr 1
      omega

lemma alphaMapLookup_nodup_get (alpha : GoStr) (j : Nat) (c : Char)
    (hnd : alpha.Nodup) (hj : alpha.get? j = some c) : alphaMapLookup alpha c = some j := by
  have := alphaMapGo_nodup_get c alpha j 0 none hnd hj
  simpa [alphaMapLookup] using this

lemma encodeLoop_length_mem (alpha : GoStr) (base : Nat) :
    ∀ (k n : Nat) (l : GoStr), encodeLoop alpha base n k = .ok l →
      l.length = k ∧ ∀ c ∈ l, c ∈ alpha := by
  intro k
  induction k with
  | zero =>
    intro n l h
    simp only [encodeLoop] at h
    cases h
    simp
  | succ k ih =>
    intro n l h
    simp only [encodeLoop] at h
    cases hg : alpha.get? (n / base ^ k) with
    | none => rw [hg] at h; cases h
    | some c =>
      rw [hg] at h
      cases he : encodeLoop alpha base (n % base ^ k) k with
      | error e => rw [he] at h; cases h
      | ok rest =>
        rw [he] at h
        cases h
        rcases ih _ _ he with ⟨hlen, hmem⟩
        refine ⟨by simp [hlen], ?_⟩
        intro x hx
        rcases List.mem_cons.mp hx with hx | hx
        · subst hx; exact List.get?_mem hg
        · exact hmem x hx

lemma encodeLoop_total (alpha : GoStr) (base : Nat) (hlen : alpha.length = base) :
    ∀ (k n : Nat), n < base ^ k → ∃ l, encodeLoop alpha base n k = .ok l := by
  intro k
  induction k with
  | zero => intro n _; exact ⟨[], rfl⟩
  | succ k ih =>
    intro n h
    have hbase : 0 < base := by
      rcases Nat.eq_zero_or_pos base with hb | hb
      · subst hb; simp [Nat.zero_pow] at h
      · exact hb
    have hm : n / base ^ k < base := by
      rw [Nat.div_lt_iff_lt_mul (pow_pos hbase k)]
      calc n < base ^ (k + 1) := h
        _ = base * base ^ k := by ring
    have hm' : n / base ^ k < alpha.length := by rw [hlen]; exact hm
    have hc : alpha.get? (n / base ^ k) = some (alpha.get ⟨n / base ^ k, hm'⟩) :=
      List.get?_eq_get hm'
    rcases ih (n % base ^ k) (Nat.mod_lt _ (pow_pos hbase k)) with ⟨rest, hr⟩
    refine ⟨alpha.get ⟨n / base ^ k, hm'⟩ :: rest, ?_⟩
    simp only [encodeLoop]
    rw [hc, hr]

lemma decodeLoop_of_encodeLoop (alpha : GoStr) (base : Nat) (hnd : alpha.Nodup) :
    ∀ (k n : Nat) (l : GoStr), n < base ^ k → encodeLoop alpha base n k = .ok l →
      ∀ acc, decodeLoop (alphaMapLookup alpha) base l acc = .ok (acc + n) := by
  intro k
  induction k with
  | zero =>
    intro n l hn h acc
    have hn0 : n = 0 := by simpa using Nat.lt_one_iff.mp (by simpa using hn)
    subst hn0
    simp only [encodeLoop] at h
    cases h
    simp [decodeLoop]
  | succ k ih =>
    intro n l hn h acc
    have hbase : 0 < base := by
      rcases Nat.eq_zero_or_pos base with hb | hb
      · subst hb; simp [Nat.zero_pow] at hn
      · exact hb
    simp only [encodeLoop] at h
    cases hg : alpha.get? (n / base ^ k) with
    | none => rw [hg] at h; cases h
    | some c =>
      rw [hg] at h
      cases he : encodeLoop alpha base (n % base ^ k) k with
      | error e => rw [he] at h; cases h
      | ok rest =>
        rw [he] at h
        cases h
        have hlk : alphaMapLookup alpha c = some (n / base ^ k) :=
          alphaMapLookup_nodup_get alpha (n / base ^ k) c hnd hg
        have hrl : rest.length = k := (encodeLoop_length_mem alpha base k _ rest he).1
        simp only [decodeLoop, hlk]
        rw [hrl]
        have hmod : n % base ^ k < base ^ k := Nat.mod_lt _ (pow_pos hbase k)
        rw [ih (n % base ^ k) rest hmod he (acc + n / base ^ k * base ^ k)]
        have hdm : n / base ^ k * base ^ k + n % base ^ k = n := by
          rw [mul_comm]
          exact Nat.div_add_mod n (base ^ k)
        rw [add_assoc, hdm]

lemma decodeLoop_total (idx : Char → Option Nat) (base : Nat) :
    ∀ (l : GoStr) (acc : Nat), (∀ c ∈ l, (idx c).isSome = true) →
      ∃ n, decodeLoop idx base l acc = .ok n := by
  intro l
  induction l with
  | nil => intro acc _; exact ⟨acc, rfl⟩
  | cons c rest ih =>
    intro acc hmem
    have hc : (idx c).isSome = true := hmem c (by simp)
    rcases Option.isSome_iff_exists.mp hc with ⟨m, hm⟩
    rcases ih (acc + m * base ^ rest.length) (fun x hx => hmem x (by simp [hx])) with ⟨n, hn⟩
    exact ⟨n, by simp only [decodeLoop, hm]; exact hn⟩

lemma decodeLoop_inv (alpha : GoStr) (base : Nat)
    (hlen : alpha.length = base) (hbase : 0 < base) :
    ∀ (t : GoStr) (acc n : Nat), decodeLoop (alphaMapLookup alpha) base t acc = .ok n →
      acc ≤ n ∧ n - acc < base ^ t.length ∧
        encodeLoop alpha base (n - acc) t.length = .ok t := by
  intro t
  induction t with
  | nil =>
    intro acc n h
    simp only [decodeLoop] at h
    cases h
    refine ⟨le_rfl, by simp, rfl⟩
  | cons c rest ih =>
    intro acc n h
    cases hl : alphaMapLookup alpha c with
    | none =>
      simp only [decodeLoop, hl] at h
      cases h
    | some m =>
      simp only [decodeLoop, hl] at h
      rcases ih _ _ h with ⟨hle, hlt, henc⟩
      rcases alphaMapLookup_some alpha c m hl with ⟨hm, hgm⟩
      rw [hlen] at hm
      have hB : 0 < base ^ rest.length := pow_pos hbase _
      have hacc : acc ≤ n := le_trans (Nat.le_add_right _ _) hle
      have h1 : n - acc = (n - (acc + m * base ^ rest.length)) + m * base ^ rest.length := by
        omega
      refine ⟨hacc, ?_, ?_⟩
      · rw [h1]
        calc (n - (acc + m * base ^ rest.length)) + m * base ^ rest.length
            < base ^ rest.length + m * base ^ rest.length := by omega
          _ = (m + 1) * base ^ rest.length := by ring
          _ ≤ base * base ^ rest.length := Nat.mul_le_mul_right _ (by omega)
          _ = base ^ (c :: rest).length := by rw [List.length_cons]; ring
      · have hdiv : (n - acc) / base ^ rest.length = m := by
          rw [h1, Nat.add_mul_div_right _ _ hB, Nat.div_eq_of_lt hlt, Nat.zero_add]
        have hmod : (n - acc) % base ^ rest.length = n - (acc + m * base ^ rest.length) := by
          rw [h1, Nat.add_mul_mod_self_right, Nat.mod_eq_of_lt hlt]
        simp only [List.length_cons, encodeLoop, hdiv, hgm, hmod, henc]

lemma base_spec (s : Nat) (h3 : 3 ≤ s) (h9 : s ≤ 9) :
    ∃ b, encodingBaseToSaveOneChar s = .ok b ∧
      (b = 14 ∨ b = 15 ∨ b = 16 ∨ b = 18 ∨ b = 22 ∨ b = 32) ∧ 10 ^ s ≤ b ^ (s - 1) := by
  interval_cases s
  · exact ⟨32, rfl, by decide, by decide⟩
  · exact ⟨22, rfl, by decide, by decide⟩
  · exact ⟨18, rfl, by decide, by decide⟩
  · exact ⟨16, rfl, by decide, by decide⟩
  · exact ⟨15, rfl, by decide, by decide⟩
  · exact ⟨14, rfl, by decide, by decide⟩
  · exact ⟨14, rfl, by decide, by decide⟩

lemma validateLoop_spec (ap : AlphabetProvider) :
    ∀ (bs : List Nat), validateAlphabetProviderLoop ap bs = .ok () →
      ∀ b ∈ bs, ∃ alpha, ap b = .ok alpha ∧ alpha.length = b ∧ alpha.Nodup := by
  intro bs
  induction bs with
  | nil => intro _ b hb; cases hb
  | cons i rest ih =>
    intro h b hb
    simp only [validateAlphabetProviderLoop] at h
    split at h
    · cases h
    · rename_i alpha hap
      split at h
      · cases h
      · rename_i hsz
        push_neg at hsz
        split at h
        · cases h
        · rename_i hdup
          push_neg at hdup
          have hnd : alpha.Nodup := by
            have heq : alpha.dedup = alpha := (List.dedup_sublist alpha).eq_of_length hdup
            rw [← heq]
            exact List.nodup_dedup alpha
          rcases List.mem_cons.mp hb with hbi | hbr
          · subst hbi; exact ⟨alpha, hap, hsz, hnd⟩
          · exact ih h b hbr

lemma validate_spec (ap : AlphabetProvider) (h : validateAlphabetProvider ap = .ok ())
    (b : Nat) (hb : b = 14 ∨ b = 15 ∨ b = 16 ∨ b = 18 ∨ b = 22 ∨ b = 32) :
    ∃ alpha, ap b = .ok alpha ∧ alpha.length = b ∧ alpha.Nodup := by
  apply validateLoop_spec ap [14, 15, 16, 18, 22, 32] h
  rcases hb with rfl | rfl | rfl | rfl | rfl | rfl <;> simp

lemma parseUint32_total (s : GoStr) (hne : s ≠ []) (hd : s.all goIsDigit = true)
    (hlt : strVal s < 2 ^ 32) : parseUint32 s = .ok (strVal s) := by
  have h1 : ¬ (s.isEmpty = true) := by
    cases s
    · exact absurd rfl hne
    · simp
  have h2 : ¬ ((!s.all goIsDigit) = true) := by simp [hd]
  have h3 : ¬ (strVal s ≥ 2 ^ 32) := by omega
  simp only [parseUint32, if_neg h1, if_neg h2, if_neg h3]

lemma parseUint32_ok (s : GoStr) (n : Nat) (h : parseUint32 s = .ok n) :
    s ≠ [] ∧ s.all goIsDigit = true ∧ strVal s < 2 ^ 32 ∧ n = strVal s := by
  unfold parseUint32 at h
  split at h
  · cases h
  · split at h
    · cases h
    · split at h
      · cases h
      · rename_i h1 h2 h3
        injection h with hn
        refine ⟨?_, ?_, by omega, hn.symm⟩
        · intro hnil
          subst hnil
          exact h1 rfl
        · simpa using h2

lemma encodeTkMD_eval (ct : GoStr) (ap : AlphabetProvider) (base : Nat) (alpha : GoStr)
    (h3 : 3 ≤ ct.length) (h9 : ct.length ≤ 9) (hd : ct.all goIsDigit = true)
    (hb : encodingBaseToSaveOneChar ct.length = .ok base) (ha : ap base = .ok alpha) :
    encodeTkMD ct ap = encodeLoop alpha base (strVal ct) (ct.length - 1) := by
  have h0 : ¬ ((ct.length < 3 || ct.length > 9) = true) := by
    simp only [Bool.or_eq_true, decide_eq_true_eq]
    omega
  have hne : ct ≠ [] := by
    intro hnil
    rw [hnil] at h3
    simp at h3
  have hlt : strVal ct < 2 ^ 32 := by
    calc strVal ct < 10 ^ ct.length := strVal_lt ct hd
      _ ≤ 10 ^ 9 := Nat.pow_le_pow_right (by norm_num) h9
      _ < 2 ^ 32 := by norm_num
  simp only [encodeTkMD, if_neg h0, parseUint32_total ct hne hd hlt, hb, ha]

lemma encodeTkMD_ok (ct : GoStr) (ap : AlphabetProvider) (tkmd : GoStr)
    (h : encodeTkMD ct ap = .ok tkmd) :
    3 ≤ ct.length ∧ ct.length ≤ 9 ∧ ct.all goIsDigit = true ∧ strVal ct < 2 ^ 32 ∧
    ∃ base alpha, encodingBaseToSaveOneChar ct.length = .ok base ∧ ap base = .ok alpha ∧
      encodeLoop alpha base (strVal ct) (ct.length - 1) = .ok tkmd := by
  unfold encodeTkMD at h
  split at h
  · cases h
  · rename_i hlen
    simp only [Bool.or_eq_true, decide_eq_true_eq, not_or, not_lt] at hlen
    split at h
    · cases h
    · rename_i n hp
      rcases parseUint32_ok ct n hp with ⟨_, hd, hlt, hn⟩
      split at h
      · cases h
      · rename_i base hb
        split at h
        · cases h
        · rename_i alpha ha
          subst hn
          exact ⟨by omega, by omega, hd, hlt, base, alpha, hb, ha, h⟩

lemma decodeTkMD_eval (t : GoStr) (ap : AlphabetProvider) (base : Nat) (alpha : GoStr) (n : Nat)
    (h2 : 2 ≤ t.length) (h8 : t.length ≤ 8)
    (hb : encodingBaseToSaveOneChar (t.length + 1) = .ok base) (ha : ap base = .ok alpha)
    (hdec : decodeLoop (alphaMapLookup alpha) base t 0 = .ok n) :
    decodeTkMD t ap = .ok (List.replicate ((t.length + 1) - (itoa n).length) '0' ++ itoa n) := by
  have h0 : ¬ ((t.length < 2 || t.length > 8) = true) := by
    simp only [Bool.or_eq_true, decide_eq_true_eq]
    omega
  simp only [decodeTkMD, if_neg h0, hb, ha, hdec]

lemma decodeTkMD_ok (t : GoStr) (ap : AlphabetProvider) (d : GoStr)
    (h : decodeTkMD t ap = .ok d) :
    2 ≤ t.length ∧ t.length ≤ 8 ∧
    ∃ base alpha n, encodingBaseToSaveOneChar (t.length + 1) = .ok base ∧ ap base = .ok alpha ∧
      decodeLoop (alphaMapLookup alpha) base t 0 = .ok n ∧
      d = List.replicate ((t.length + 1) - (itoa n).length) '0' ++ itoa n := by
  unfold decodeTkMD at h
  split at h
  · cases h
  · rename_i hlen
    simp only [Bool.or_eq_true, decide_eq_true_eq, not_or, not_lt] at hlen
    split at h
    · cases h
    · rename_i base hb
      split at h
      · cases h
      · rename_i alpha ha
        split at h
        · cases h
        · rename_i n hd
          injection h with hok
          exact ⟨by omega, by omega, base, alpha, n, hb, ha, hd, hok.symm⟩

lemma encodeTkMD_roundtrip (ap : AlphabetProvider) (hap : validateAlphabetProvider ap = .ok ())
    (d : GoStr) (h3 : 3 ≤ d.length) (h9 : d.length ≤ 9) (hd : d.all goIsDigit = true) :
    ∃ t base alpha, encodingBaseToSaveOneChar d.length = .ok base ∧ ap base = .ok alpha ∧
      alpha.length = base ∧ alpha.Nodup ∧
      encodeTkMD d ap = .ok t ∧ t.length = d.length - 1 ∧ (∀ c ∈ t, c ∈ alpha) ∧
      decodeTkMD t ap = .ok d := by
  rcases base_spec d.length h3 h9 with ⟨base, hb, hbset, hpow⟩
  rcases validate_spec ap hap base hbset with ⟨alpha, ha, hal, hnd⟩
  have hn : strVal d < base ^ (d.length - 1) := by
    calc strVal d < 10 ^ d.length := strVal_lt d hd
      _ ≤ base ^ (d.length - 1) := hpow
  rcases encodeLoop_total alpha base hal (d.length - 1) (strVal d) hn with ⟨t, ht⟩
  have heval := encodeTkMD_eval d ap base alpha h3 h9 hd hb ha
  have henc : encodeTkMD d ap = .ok t := by rw [heval, ht]
  rcases encodeLoop_length_mem alpha base _ _ _ ht with ⟨htlen, htmem⟩
  have hdecl := decodeLoop_of_encodeLoop alpha base hnd (d.length - 1) (strVal d) t hn ht 0
  have hlen2 : 2 ≤ t.length := by omega
  have hlen8 : t.length ≤ 8 := by omega
  have harith : t.length + 1 = d.length := by omega
  have hbt : encodingBaseToSaveOneChar (t.length + 1) = .ok base := by rw [harith]; exact hb
  have hdec := decodeTkMD_eval t ap base alpha (strVal d) hlen2 hlen8 hbt ha
    (by simpa using hdecl)
  have hpad : List.replicate ((t.length + 1) - (itoa (strVal d)).length) '0' ++ itoa (strVal d)
      = d := by
    rw [harith]
    exact pad_itoa d hd (by intro hnil; rw [hnil] at h3; simp at h3)
  exact ⟨t, base, alpha, hb, ha, hal, hnd, henc, htlen, htmem, by rw [hdec, hpad]⟩

lemma decodeTkMD_then_encode (ap : AlphabetProvider)
    (hap : validateAlphabetProvider ap = .ok ()) (t d : GoStr)
    (hdec : decodeTkMD t ap = .ok d) (hlen : d.length = t.length + 1) :
    encodeTkMD d ap = .ok t := by
  rcases decodeTkMD_ok t ap d hdec with ⟨h2, h8, base, alpha, n, hb, ha, hn, hdeq⟩
  rcases base_spec (t.length + 1) (by omega) (by omega) with ⟨b, hb', hbset, hpow⟩
  have hbb : base = b := by
    rw [hb] at hb'
    injection hb'
  subst hbb
  rcases validate_spec ap hap base hbset with ⟨alpha', ha', hal, hnd⟩
  have haa : alpha' = alpha := by
    rw [ha] at ha'
    injection ha' with h
    exact h.symm
  rw [haa] at hal hnd
  have hbase0 : 0 < base := by rcases hbset with h | h | h | h | h | h <;> omega
  rcases decodeLoop_inv alpha base hal hbase0 t 0 n hn with ⟨_, hlt, henc⟩
  rw [Nat.sub_zero] at hlt henc
  have hk : (itoa n).length ≤ t.length + 1 := by
    have hdl := congrArg List.length hdeq
    rw [hlen] at hdl
    simp only [List.length_append, List.length_replicate] at hdl
    omega
  have hdd : d.all goIsDigit = true := by
    rw [hdeq, List.all_append, Bool.and_eq_true]
    refine ⟨?_, itoa_all_digits n⟩
    rw [List.all_eq_true]
    intro x hx
    rw [List.eq_of_mem_replicate hx]
    decide
  have hvd : strVal d = n := by
    rw [hdeq, strVal_zeros_prefix, strVal_itoa]
  have hbd : encodingBaseToSaveOneChar d.length = .ok base := by
    rw [hlen]
    exact hb
  have heval := encodeTkMD_eval d ap base alpha (by omega) (by omega) hdd hbd ha
  rw [heval, hvd, show d.length - 1 = t.length from by omega, henc]

lemma goCopy_eval (s : GoStr) (h : 6 ≤ s.length) :
    goCopy (List.replicate 10 (Char.ofNat 0)) (s.take 6)
      = s.take 6 ++ List.replicate 4 (Char.ofNat 0) := by
  unfold goCopy
  have h1 : (s.take 6).length = 6 := by rw [List.length_take]; omega
  rw [List.length_replicate, h1]
  rw [List.take_of_length_le (by rw [h1]; norm_num)]
  rw [show min 10 6 = 6 from by norm_num, List.drop_replicate]

lemma sixByFourCC_eval (s : GoStr) (h : 6 ≤ s.length) :
    sixByFourCC s = s.take 6 ++ List.replicate 4 (Char.ofNat 0) ++ s.drop (s.length - 4) := by
  unfold sixByFourCC
  rw [goCopy_eval s h]

lemma sixByFourTK_eq_CC (s : GoStr) : sixByFourTK s = sixByFourCC s := rfl

lemma sixByFour_eq_of_take_drop (cc tk : GoStr) (hcc : 6 ≤ cc.length) (htk : 6 ≤ tk.length)
    (hpre : cc.take 6 = tk.take 6) (hsuf : cc.drop (cc.length - 4) = tk.drop (tk.length - 4)) :
    sixByFourCC cc = sixByFourTK tk := by
  rw [sixByFourTK_eq_CC, sixByFourCC_eval cc hcc, sixByFourCC_eval tk htk, hpre, hsuf]

lemma isValidCC_iff (cc : GoStr) :
    isValidCC cc = true ↔ 13 ≤ cc.length ∧ cc.length ≤ 19 ∧ cc.all goIsDigit = true := by
  simp [isValidCC, Bool.and_eq_true, decide_eq_true_eq, and_assoc]

lemma contains_iff (s : GoStr) (v : Char) : contains s v = true ↔ v ∈ s := by
  simp [contains, List.any_eq_true]

lemma isValidTK_true_parts (tk : GoStr) (ap : AlphabetProvider) (vers : GoStr)
    (h : isValidTK tk ap vers = true) :
    13 ≤ tk.length ∧ tk.length ≤ 19 ∧ contains vers (tk.getD 6 (Char.ofNat 0)) = true := by
  unfold isValidTK at h
  split at h
  · cases h
  · rename_i hlen
    simp only [Bool.or_eq_true, decide_eq_true_eq, not_or, not_lt] at hlen
    split at h
    · cases h
    · split at h
      · cases h
      · split at h
        · cases h
        · split at h
          · cases h
          · split at h
            · cases h
            · exact ⟨by omega, by omega, h⟩

lemma isValidTK_build (tk : GoStr) (ap : AlphabetProvider) (vers : GoStr)
    (base : Nat) (alpha : GoStr)
    (h13 : 13 ≤ tk.length) (h19 : tk.length ≤ 19)
    (hsix : (tk.take 6).all goIsDigit = true)
    (hfour : (tk.drop (tk.length - 4)).all goIsDigit = true)
    (hb : encodingBaseToSaveOneChar (tk.length - 10) = .ok base)
    (ha : ap base = .ok alpha)
    (hmid : ((tk.drop 7).take (tk.length - 4 - 7)).all
        (fun c => (alphaMapLookup alpha c).isSome) = true)
    (hcont : contains vers (tk.getD 6 (Char.ofNat 0)) = true) :
    isValidTK tk ap vers = true := by
  have h0 : ¬ ((tk.length < 13 || tk.length > 19) = true) := by
    simp only [Bool.or_eq_true, decide_eq_true_eq]
    omega
  simp [isValidTK, if_neg h0, hsix, hfour, hb, ha, hmid, hcont]
  exact ⟨⟨h13, h19⟩, by simpa using hcont⟩

lemma EncryptCC_ok (hm : HmacFn) (ff1 : FPENewCipher) (e : Engine) (cc tk : GoStr)
    (h : EncryptCC hm ff1 e cc = .ok tk) :
    isValidCC cc = true ∧
    ∃ v ekey hkey cipher ct tkmd,
      e.versioner.GetTokenizationVersion = .ok v ∧
      e.encryptionKeys v = .ok ekey ∧
      e.hmacKeys v = .ok hkey ∧
      ff1 10 (hm hkey (sixByFourCC cc)).length ekey (hm hkey (sixByFourCC cc)) = .ok cipher ∧
      cipher.Encrypt ((cc.drop 6).take (cc.length - 4 - 6)) = .ok ct ∧
      ((cc.drop 6).take (cc.length - 4 - 6)).length = ct.length ∧
      encodeTkMD ct e.alphaProvider = .ok tkmd ∧
      tk = cc.take 6 ++ [v] ++ tkmd ++ cc.drop (cc.length - 4) := by
  unfold EncryptCC at h
  split at h
  · cases h
  · rename_i hvalid
    simp at hvalid
    split at h
    · cases h
    · rename_i v hv
      split at h
      · cases h
      · rename_i ekey hekey
        split at h
        · cases h
        · rename_i hkey hhkey
          dsimp only at h
          split at h
          · cases h
          · rename_i cipher hcipher
            split at h
            · cases h
            · rename_i ct hct
              split at h
              · cases h
              · rename_i hlen
                push_neg at hlen
                split at h
                · cases h
                · rename_i tkmd htkmd
                  injection h with htk
                  exact ⟨hvalid, v, ekey, hkey, cipher, ct, tkmd, hv, hekey, hhkey,
                    hcipher, hct, hlen, htkmd, htk.symm⟩

lemma round_trip_core (hm : HmacFn) (ff1 : FPENewCipher) (e : Engine) (cc tk : GoStr)
    (v : Char) (vers : GoStr)
    (hap : validateAlphabetProvider e.alphaProvider = .ok ())
    (hv : e.versioner.GetTokenizationVersion = .ok v)
    (hvers : e.versioner.GetDetokenizationVersions = .ok vers)
    (hmem : v ∈ vers)
    (hinv : ∀ tweakLen ekey tweak cipher, ff1 10 tweakLen ekey tweak = .ok cipher →
      ∀ p c, cipher.Encrypt p = .ok c → cipher.Decrypt c = .ok p)
    (henc : EncryptCC hm ff1 e cc = .ok tk) :
    DecryptTK hm ff1 e tk = .ok cc := by
  rcases EncryptCC_ok hm ff1 e cc tk henc with
    ⟨hvalid, v', ekey, hkey, cipher, ct, tkmd, hv', hekey, hhkey, hcipher, hct, hlenct,
      htkmd, htk⟩
  rw [hv] at hv'
  injection hv' with hvv
  subst hvv
  rcases (isValidCC_iff cc).mp hvalid with ⟨h13, h19, hdig⟩
  have hmd0len : ((cc.drop 6).take (cc.length - 4 - 6)).length = cc.length - 10 := by
    rw [List.length_take, List.length_drop]
    omega
  rcases encodeTkMD_ok ct e.alphaProvider tkmd htkmd with ⟨h3ct, h9ct, hctdig, _, _⟩
  rcases encodeTkMD_roundtrip e.alphaProvider hap ct h3ct h9ct hctdig with
    ⟨t2, base, alpha, hb, ha, hal, hnd, henc2, ht2len, ht2mem, hdec2⟩
  rw [htkmd] at henc2
  injection henc2 with ht2
  subst ht2
  have hctlen : ct.length = cc.length - 10 := by omega
  have htkmdlen : tkmd.length = cc.length - 11 := by omega
  have hA6 : (cc.take 6).length = 6 := by rw [List.length_take]; omega
  have hD4 : (cc.drop (cc.length - 4)).length = 4 := by rw [List.length_drop]; omega
  have hform1 : tk = cc.take 6 ++ ([v] ++ (tkmd ++ cc.drop (cc.length - 4))) := by
    rw [htk]
    simp [List.append_assoc]
  have hform2 : tk = (cc.take 6 ++ [v] ++ tkmd) ++ cc.drop (cc.length - 4) := htk
  have hform3 : tk = (cc.take 6 ++ [v]) ++ (tkmd ++ cc.drop (cc.length - 4)) := by
    rw [htk]
    simp [List.append_assoc]
  have htklen : tk.length = cc.length := by
    rw [hform1]
    simp only [List.length_append, List.length_singleton, hA6, hD4]
    omega
  have htake6 : tk.take 6 = cc.take 6 := by
    rw [hform1]
    exact List.take_left' hA6
  have hget6 : tk.getD 6 (Char.ofNat 0) = v := by
    rw [hform1, List.getD_append_right _ _ _ _ (le_of_eq hA6), hA6]
    rfl
  have hdrop6 : tk.drop 6 = [v] ++ (tkmd ++ cc.drop (cc.length - 4)) := by
    rw [hform1]
    exact List.drop_left' hA6
  have hmd : (tk.drop 6).take (tk.length - 4 - 6) = [v] ++ tkmd := by
    rw [hdrop6, htklen]
    have hP : ([v] ++ tkmd).length = cc.length - 4 - 6 := by
      simp only [List.length_append, List.length_singleton]
      omega
    exact List.take_left' hP
  have hdroplast : tk.drop (tk.length - 4) = cc.drop (cc.length - 4) := by
    rw [htklen, hform2]
    apply List.drop_left'
    simp only [List.length_append, List.length_singleton, hA6]
    omega
  have hmiddle : (tk.drop 7).take (tk.length - 4 - 7) = tkmd := by
    have hdrop7 : tk.drop 7 = tkmd ++ cc.drop (cc.length - 4) := by
      rw [hform3]
      apply List.drop_left'
      simp only [List.length_append, List.length_singleton, hA6]
    rw [hdrop7, htklen]
    exact List.take_left' (by omega)
  have hvalidTK : isValidTK tk e.alphaProvider vers = true := by
    apply isValidTK_build tk e.alphaProvider vers base alpha (by omega) (by omega)
    · rw [htake6, List.all_eq_true]
      rw [List.all_eq_true] at hdig
      intro x hx
      exact hdig x (List.take_subset _ _ hx)
    · rw [hdroplast, List.all_eq_true]
      rw [List.all_eq_true] at hdig
      intro x hx
      exact hdig x (List.drop_subset _ _ hx)
    · rw [htklen, ← hctlen]
      exact hb
    · exact ha
    · rw [hmiddle, List.all_eq_true]
      intro x hx
      exact (alphaMapLookup_isSome alpha x).mpr (ht2mem x hx)
    · rw [hget6]
      exact (contains_iff vers v).mpr hmem
  have hsix : sixByFourTK tk = sixByFourCC cc := by
    refine (sixByFour_eq_of_take_drop cc tk (by omega) (by omega)
      htake6.symm hdroplast.symm).symm
  have hdecr : cipher.Decrypt ct = .ok ((cc.drop 6).take (cc.length - 4 - 6)) :=
    hinv _ _ _ _ hcipher _ _ hct
  have hnotbad : ¬ ((!isValidTK tk e.alphaProvider vers) = true) := by
    rw [hvalidTK]
    simp
  have hdropone : ([v] ++ tkmd).drop 1 = tkmd := rfl
  have hlenmd : ([v] ++ tkmd).length = ((cc.drop 6).take (cc.length - 4 - 6)).length := by
    simp only [List.length_append, List.length_singleton]
    omega
  have hrecon : cc.take 6 ++ ((cc.drop 6).take (cc.length - 4 - 6) ++
      cc.drop (cc.length - 4)) = cc := by
    have h2 : (cc.drop 6).drop (cc.length - 4 - 6) = cc.drop (cc.length - 4) := by
      rw [List.drop_drop]
      congr 1
      omega
    rw [← h2, List.take_append_drop, List.take_append_drop]
  simp only [DecryptTK, hvers, if_neg hnotbad, hget6, hekey, hhkey, hsix, hmd, hdropone,
    hdec2, hcipher, hdecr, hlenmd, ne_eq, not_true_eq_false, if_false, ite_false]
  rw [htake6, hdroplast]
  rw [List.append_assoc, hrecon]

/-- Claim C1: for every credit-card string of 13 to 19 ASCII digits, if
EncryptCC succeeds using tokenization version v and v is contained in the
versioner's detokenization versions, then DecryptTK of the produced token
returns the original card, the format-preserving cipher being modelled as a
deterministic encrypt/decrypt pair that are mutual inverses for a fixed key
and tweak. -/
theorem C1_round_trip (hm : HmacFn) (ff1 : FPENewCipher) (e : Engine) (cc tk : GoStr)
    (v : Char) (vers : GoStr)
    (_hcc : isValidCC cc = true)
    (hap : validateAlphabetProvider e.alphaProvider = .ok ())
    (hv : e.versioner.GetTokenizationVersion = .ok v)
    (hvers : e.versioner.GetDetokenizationVersions = .ok vers)
    (hmem : v ∈ vers)
    (hinv : ∀ tweakLen ekey tweak cipher, ff1 10 tweakLen ekey tweak = .ok cipher →
      ∀ p c, cipher.Encrypt p = .ok c → cipher.Decrypt c = .ok p)
    (henc : EncryptCC hm ff1 e cc = .ok tk) :
    DecryptTK hm ff1 e tk = .ok cc :=
  round_trip_core hm ff1 e cc tk v vers hap hv hvers hmem hinv henc

/-- Claim C1 witness: a concrete round trip through the engine with the
identity cipher, version 'a' and the default alphabets. -/
theorem C1_witness :
    DecryptTK zeroHmac idFF1 wEngine "444433afbblo1111".data
      = .ok "4444333322221111".data :=
  C1_round_trip zeroHmac idFF1 wEngine "4444333322221111".data "444433afbblo1111".data
    'a' ['a', 'b', 'c', 'd'] (by decide) (by decide) rfl rfl (by decide)
    (fun _ _ _ cipher hc p c hec => by
      cases hc
      cases hec
      rfl)
    (by decide)

/-- Claim C2 counterexample: "55" is a 2-symbol string drawn from the base-32
alphabet, yet Encode(Decode("55")) is "ccl", not "55" (its decoded value 1023
does not fit in 3 decimal digits, so Decode returns the 4-digit "1023"). -/
theorem C2_counterexample :
    (['5', '5'] : GoStr).all (fun c => (alphaMapLookup alphabet32 c).isSome) = true ∧
    (decodeTkMD ['5', '5'] DefaultAlphabetProvider).bind
      (fun d => encodeTkMD d DefaultAlphabetProvider) = .ok ['c', 'c', 'l'] ∧
    (['c', 'c', 'l'] : GoStr) ≠ ['5', '5'] := by
  exact ⟨by decide, by decide, by decide⟩

/-- Claim C2 (amended): with a validated alphabet provider,
Decode(Encode(d)) = d for every decimal string d of length 3..9; and
Encode(Decode(t)) = t for every symbol string t of length 2..8 on which
Decode returns a digit string of the documented length len(t)+1 (for the
remaining valid symbol strings the decoded value overflows len(t)+1 digits
and the round trip fails, e.g. t = "55"). -/
theorem C2_codec_round_trip (ap : AlphabetProvider)
    (hap : validateAlphabetProvider ap = .ok ()) :
    (∀ d : GoStr, 3 ≤ d.length → d.length ≤ 9 → d.all goIsDigit = true →
      (encodeTkMD d ap).bind (fun t => decodeTkMD t ap) = .ok d) ∧
    (∀ t d : GoStr, 2 ≤ t.length → t.length ≤ 8 → decodeTkMD t ap = .ok d →
      d.length = t.length + 1 → encodeTkMD d ap = .ok t) := by
  constructor
  · intro d h3 h9 hd
    rcases encodeTkMD_roundtrip ap hap d h3 h9 hd with
      ⟨t, base, alpha, _, _, _, _, henc, _, _, hdec⟩
    rw [henc]
    simpa [Except.bind] using hdec
  · intro t d _ _ hdec hlen
    exact decodeTkMD_then_encode ap hap t d hdec hlen

/-- Claim C2 witness: the amended round trips evaluated on concrete strings
with the default provider. -/
theorem C2_witness :
    (encodeTkMD ['0', '0', '0'] DefaultAlphabetProvider).bind
      (fun t => decodeTkMD t DefaultAlphabetProvider) = .ok ['0', '0', '0'] ∧
    encodeTkMD ['0', '0', '1'] DefaultAlphabetProvider = .ok ['a', 'b'] :=
  ⟨(C2_codec_round_trip DefaultAlphabetProvider (by decide)).1 ['0', '0', '0']
      (by decide) (by decide) (by decide),
   (C2_codec_round_trip DefaultAlphabetProvider (by decide)).2 ['a', 'b'] ['0', '0', '1']
      (by decide) (by decide) (by decide) (by decide)⟩

/-- Claim C3 counterexample: the buffer actually hashed by EncryptCC is not
the 10-character 6x4 fingerprint the spec describes (it has four extra NUL
bytes in the middle). -/
theorem C3_counterexample :
    sixByFourCC "4444333322221111".data ≠ specFingerprint "4444333322221111".data := by
  decide

/-- Claim C3 (amended): in both EncryptCC and DecryptTK the message over
which the HMAC is computed is the 14-byte buffer made of the input's first 6
bytes, four zero bytes, and its last 4 bytes — not the 10-character
fingerprint. -/
theorem C3_hmac_message (s : GoStr) (h : 13 ≤ s.length) :
    sixByFourCC s = s.take 6 ++ List.replicate 4 (Char.ofNat 0) ++ s.drop (s.length - 4) ∧
    sixByFourTK s = s.take 6 ++ List.replicate 4 (Char.ofNat 0) ++ s.drop (s.length - 4) ∧
    (sixByFourCC s).length = 14 := by
  have he := sixByFourCC_eval s (by omega)
  refine ⟨he, by rw [sixByFourTK_eq_CC]; exact he, ?_⟩
  rw [he]
  simp only [List.length_append, List.length_take, List.length_drop, List.length_replicate]
  omega

/-- Claim C3 witness: the amended statement evaluated on a concrete card. -/
theorem C3_witness :
    sixByFourCC "4444333322221111".data = ("4444333322221111".data).take 6 ++
      List.replicate 4 (Char.ofNat 0) ++
      ("4444333322221111".data).drop (("4444333322221111".data).length - 4) :=
  (C3_hmac_message "4444333322221111".data (by decide)).1

/-- Claim C4: EncryptCC and DecryptTK pass byte-for-byte identical messages
to the keyed hash when deriving the tweak, for any card and token whose
first 6 and last 4 characters agree: both build the same 14-byte buffer
(first 6 bytes, four zero bytes, last 4 bytes), so the derived tweak agrees
under the same HMAC key. -/
theorem C4_same_hmac_message (hm : HmacFn) (cc tk : GoStr)
    (hcc : 13 ≤ cc.length) (htk : 13 ≤ tk.length)
    (hpre : cc.take 6 = tk.take 6)
    (hsuf : cc.drop (cc.length - 4) = tk.drop (tk.length - 4)) :
    sixByFourCC cc = sixByFourTK tk ∧
    (sixByFourCC cc).length = 14 ∧
    sixByFourCC cc = cc.take 6 ++ List.replicate 4 (Char.ofNat 0) ++
      cc.drop (cc.length - 4) ∧
    ∀ hkey, hm hkey (sixByFourCC cc) = hm hkey (sixByFourTK tk) := by
  have heq := sixByFour_eq_of_take_drop cc tk (by omega) (by omega) hpre hsuf
  have he := sixByFourCC_eval cc (by omega)
  refine ⟨heq, ?_, he, fun hkey => by rw [heq]⟩
  rw [he]
  simp only [List.length_append, List.length_take, List.length_drop, List.length_replicate]
  omega

/-- Claim C4 witness: the common HMAC message for a concrete card and its
concrete token. -/
theorem C4_witness :
    sixByFourCC "4444333322221111".data = sixByFourTK "444433afbblo1111".data :=
  (C4_same_hmac_message zeroHmac "4444333322221111".data "444433afbblo1111".data
    (by decide) (by decide) (by decide) (by decide)).1

/-- Claim C5 counterexample: the input "444433332222111" named by the spec is
a 15-character all-digit string, hence a valid card: EncryptCC does not fail
on it (here it succeeds with the identity cipher engine). -/
theorem C5_counterexample :
    isValidCC "444433332222111".data = true ∧
    EncryptCC zeroHmac idFF1 wEngine "444433332222111".data
      = .ok "444433afmjm2111".data := by
  exact ⟨by decide, by decide⟩

/-- Claim C5 (amended): EncryptCC fails with the InvalidCC error for every
input containing a non-digit character or whose length is less than 13 or
greater than 19 — in particular for "A444333322221111" and
"44443333222211111111"; the spec's third example "444433332222111" is 15
digits and therefore valid, so it is not rejected. -/
theorem C5_invalid_cc_rejected (hm : HmacFn) (ff1 : FPENewCipher) (e : Engine) (cc : GoStr)
    (hbad : cc.length < 13 ∨ 19 < cc.length ∨ cc.all goIsDigit = false) :
    EncryptCC hm ff1 e cc = .error "Invalid CC format" := by
  have hval : ¬ (isValidCC cc = true) := by
    rw [isValidCC_iff]
    rintro ⟨ha, hb, hc⟩
    rcases hbad with h | h | h
    · omega
    · omega
    · rw [hc] at h
      cases h
  have hval' : isValidCC cc = false := by
    cases hb : isValidCC cc
    · rfl
    · exact absurd hb hval
  simp [EncryptCC, hval']

/-- Claim C5 witness: the two genuinely invalid concrete inputs are rejected
with the InvalidCC error. -/
theorem C5_witness :
    EncryptCC zeroHmac idFF1 wEngine "A444333322221111".data
      = .error "Invalid CC format" ∧
    EncryptCC zeroHmac idFF1 wEngine "44443333222211111111".data
      = .error "Invalid CC format" :=
  ⟨C5_invalid_cc_rejected zeroHmac idFF1 wEngine "A444333322221111".data (by decide),
   C5_invalid_cc_rejected zeroHmac idFF1 wEngine "44443333222211111111".data (by decide)⟩

/-- Claim C6: whenever the token's 7th character is not a member of the set
returned by GetDetokenizationVersions, DecryptTK returns the InvalidTK
error. -/
theorem C6_version_gating (hm : HmacFn) (ff1 : FPENewCipher) (e : Engine) (tk : GoStr)
    (vers : GoStr) (c : Char)
    (hvers : e.versioner.GetDetokenizationVersions = .ok vers)
    (hc : tk.get? 6 = some c) (hnm : c ∉ vers) :
    DecryptTK hm ff1 e tk = .error "Invalid TK format" := by
  have hbad : isValidTK tk e.alphaProvider vers = false := by
    cases hb : isValidTK tk e.alphaProvider vers
    · rfl
    · exfalso
      rcases isValidTK_true_parts tk e.alphaProvider vers hb with ⟨h13, _, hcont⟩
      have hgetd : tk.getD 6 (Char.ofNat 0) = c := by
        rw [List.getD_eq_get?, hc]
        rfl
      rw [hgetd] at hcont
      exact hnm ((contains_iff _ _).mp hcont)
  simp [DecryptTK, hvers, hbad]

/-- Claim C6 witness: a token with embedded version 'f' is rejected when the
detokenization versions are a, b, c, d. -/
theorem C6_witness :
    DecryptTK zeroHmac idFF1 wEngine "444433faaaaa1111".data
      = .error "Invalid TK format" :=
  C6_version_gating zeroHmac idFF1 wEngine "444433faaaaa1111".data
    ['a', 'b', 'c', 'd'] 'f' rfl (by decide) (by decide)

/-- Claim C7: whenever EncryptCC succeeds, the returned token has exactly the
same length as the input card. -/
theorem C7_length_preservation (hm : HmacFn) (ff1 : FPENewCipher) (e : Engine)
    (cc tk : GoStr) (henc : EncryptCC hm ff1 e cc = .ok tk) : tk.length = cc.length := by
  rcases EncryptCC_ok hm ff1 e cc tk henc with
    ⟨hvalid, v, ekey, hkey, cipher, ct, tkmd, _, _, _, _, _, hlenct, htkmd, htk⟩
  rcases (isValidCC_iff cc).mp hvalid with ⟨h13, h19, _⟩
  rcases encodeTkMD_ok ct e.alphaProvider tkmd htkmd with
    ⟨_, _, _, _, base, alpha, _, _, hloop⟩
  have htkmdlen : tkmd.length = ct.length - 1 :=
    (encodeLoop_length_mem alpha base _ _ _ hloop).1
  have hctlen : ct.length = cc.length - 10 := by
    rw [← hlenct, List.length_take, List.length_drop]
    omega
  rw [htk]
  simp only [List.length_append, List.length_singleton, List.length_take, List.length_drop]
  omega

/-- Claim C7 witness: length preservation on a concrete card. -/
theorem C7_witness :
    ("444433afbblo1111".data).length = ("4444333322221111".data).length :=
  C7_length_preservation zeroHmac idFF1 wEngine "4444333322221111".data
    "444433afbblo1111".data (by decide)

/-- Claim C8: whenever EncryptCC succeeds, the token preserves the card's
first 6 and last 4 characters verbatim, and its 7th character is the version
byte returned by the versioner on that call. -/
theorem C8_digit_preservation (hm : HmacFn) (ff1 : FPENewCipher) (e : Engine)
    (cc tk : GoStr) (v : Char)
    (hv : e.versioner.GetTokenizationVersion = .ok v)
    (henc : EncryptCC hm ff1 e cc = .ok tk) :
    tk.take 6 = cc.take 6 ∧ tk.drop (tk.length - 4) = cc.drop (cc.length - 4) ∧
    tk.get? 6 = some v := by
  rcases EncryptCC_ok hm ff1 e cc tk henc with
    ⟨hvalid, v', ekey, hkey, cipher, ct, tkmd, hv', _, _, _, _, hlenct, htkmd, htk⟩
  rw [hv] at hv'
  injection hv' with hvv
  subst hvv
  rcases (isValidCC_iff cc).mp hvalid with ⟨h13, h19, _⟩
  rcases encodeTkMD_ok ct e.alphaProvider tkmd htkmd with
    ⟨_, _, _, _, base, alpha, _, _, hloop⟩
  have htkmdlen : tkmd.length = ct.length - 1 :=
    (encodeLoop_length_mem alpha base _ _ _ hloop).1
  have hctlen : ct.length = cc.length - 10 := by
    rw [← hlenct, List.length_take, List.length_drop]
    omega
  have hA6 : (cc.take 6).length = 6 := by rw [List.length_take]; omega
  have hform1 : tk = cc.take 6 ++ ([v] ++ (tkmd ++ cc.drop (cc.length - 4))) := by
    rw [htk]
    simp [List.append_assoc]
  have htklen : tk.length = cc.length := by
    rw [hform1]
    simp only [List.length_append, List.length_singleton, hA6, List.length_drop]
    omega
  refine ⟨?_, ?_, ?_⟩
  · rw [hform1]
    exact List.take_left' hA6
  · rw [htklen, htk]
    apply List.drop_left'
    simp only [List.length_append, List.length_singleton, hA6]
    omega
  · rw [hform1, List.get?_append_right (le_of_eq hA6), hA6]
    rfl

/-- Claim C8 witness: the preserved prefix, suffix and version byte on a
concrete card. -/
theorem C8_witness :
    ("444433afbblo1111".data).take 6 = ("4444333322221111".data).take 6 ∧
    ("444433afbblo1111".data).drop (("444433afbblo1111".data).length - 4)
      = ("4444333322221111".data).drop (("4444333322221111".data).length - 4) ∧
    ("444433afbblo1111".data).get? 6 = some 'a' :=
  C8_digit_preservation zeroHmac idFF1 wEngine "4444333322221111".data
    "444433afbblo1111".data 'a' rfl (by decide)

/-- Claim C9: the literal codec cases of the spec, with the default alphabet
provider. -/
theorem C9_codec_literal_cases :
    encodeTkMD "000".data DefaultAlphabetProvider = .ok "aa".data ∧
    encodeTkMD "001".data DefaultAlphabetProvider = .ok "ab".data ∧
    encodeTkMD "352".data DefaultAlphabetProvider = .ok "la".data ∧
    encodeTkMD "00001".data DefaultAlphabetProvider = .ok "aaab".data ∧
    decodeTkMD "aa".data DefaultAlphabetProvider = .ok "000".data ∧
    decodeTkMD "ab".data DefaultAlphabetProvider = .ok "001".data ∧
    decodeTkMD "la".data DefaultAlphabetProvider = .ok "352".data ∧
    decodeTkMD "aaab".data DefaultAlphabetProvider = .ok "00001".data := by
  exact ⟨by decide, by decide, by decide, by decide, by decide, by decide, by decide,
    by decide⟩

/-- Claim C10: encodingBaseToSaveOneChar returns 32, 22, 18, 16, 15, 14, 14
for s = 3..9, each base b satisfying b^(s-1) > 10^s - 1, and returns an error
for every s outside 3..9. -/
theorem C10_base_table :
    (encodingBaseToSaveOneChar 3 = .ok 32 ∧ encodingBaseToSaveOneChar 4 = .ok 22 ∧
     encodingBaseToSaveOneChar 5 = .ok 18 ∧ encodingBaseToSaveOneChar 6 = .ok 16 ∧
     encodingBaseToSaveOneChar 7 = .ok 15 ∧ encodingBaseToSaveOneChar 8 = .ok 14 ∧
     encodingBaseToSaveOneChar 9 = .ok 14) ∧
    (∀ s b : Nat, 3 ≤ s → s ≤ 9 → encodingBaseToSaveOneChar s = .ok b →
      10 ^ s - 1 < b ^ (s - 1)) ∧
    (∀ s : Nat, s < 3 ∨ 9 < s → ∃ msg, encodingBaseToSaveOneChar s = .error msg) := by
  refine ⟨⟨rfl, rfl, rfl, rfl, rfl, rfl, rfl⟩, ?_, ?_⟩
  · intro s b h3 h9 hb
    interval_cases s <;> (cases hb; decide)
  · intro s hs
    refine ⟨"Invalid CC or TK size: " ++ natToString s, ?_⟩
    unfold encodingBaseToSaveOneChar
    rw [if_pos (by simp only [Bool.or_eq_true, decide_eq_true_eq]; omega)]

/-- Claim C10 witness: the inequality at s = 5 and the error outside the
range. -/
theorem C10_witness :
    10 ^ 5 - 1 < 18 ^ 4 ∧ (∃ msg, encodingBaseToSaveOneChar 10 = .error msg) :=
  ⟨C10_base_table.2.1 5 18 (by decide) (by decide) rfl,
   C10_base_table.2.2 10 (by decide)⟩

end TkEngine
